import Mathlib

/-!
Verification of the cashu-wallet-rs core against its specification.

This file shallowly embeds the parts of the wallet that the checked
properties talk about:

* `select_send_proofs` (src/cashu-wallet/src/unity.rs) — proof selection
  for sends and melts;
* the redb counter table (`add_counter` in
  src/cashu-wallet/src/store/impl_redb.rs);
* the deterministic counter manager (src/cashu-wallet/src/wallet/counter.rs);
* the swap retry loop `try_to_call_swap` and the blank-output planner
  (src/cashu-wallet/src/wallet/mod.rs);
* the restore retention filter and `receive_token` entry checks
  (src/cashu-wallet/src/wallet/mod.rs);
* token string parsing and the v3/v4 wire codecs
  (src/cashu-wallet/src/wallet/token.rs);
* the pending-transaction checker (src/cashu-wallet/src/unity.rs).

Machine integers of the source (u64) are modelled as `Nat`: none of the
embedded routines can overflow on the inputs the theorems quantify over
(amounts are sums of 64-bit proof amounts and counters stay below 2^31),
and where a bound matters (the counter index space) it is stated
explicitly.  Rust `String`s are modelled as `String` where only equality
is used and as byte lists (`List UInt8`) where the source indexes bytes.
Fallible Rust functions (`Result`) become `Except`/`Option`.
-/

namespace CashuWallet

/-! ## Proof selection: `select_send_proofs` (unity.rs)

A stored proof, reduced to the fields `select_send_proofs` reads: its
amount.  A `pid` tags each proof so that reordering is observable. -/

structure SProof where
  pid : Nat
  amount : Nat
deriving DecidableEq, Repr

/-- The two failure modes of `select_send_proofs`:
`WalletError::Custom("send amount 0")` and `WalletError::InsufficientFunds`. -/
inductive SelectErr where
  | amountZero
  | insufficientFunds
deriving DecidableEq, Repr

/-- Rust `Vec::swap i j` (both indices are in bounds at every call site;
out-of-bounds inputs return the list unchanged). -/
def listSwap (l : List α) (i j : Nat) : List α :=
  match l[i]?, l[j]? with
  | some a, some b => (l.set i b).set j a
  | _, _ => l

/-- The accumulation loop of `select_send_proofs`: walk the proofs in
stored order adding amounts (`a += proof.amount`), and return the index
at which the running sum first reaches `target` (`if a >= amount { take
= idx; break }`); `none` when the list is exhausted first. -/
def walkTake (target : Nat) : List SProof → Nat → Nat → Option Nat
  | [], _, _ => none
  | p :: rest, a, idx =>
    let a2 := a + p.amount
    if target ≤ a2 then some idx else walkTake target rest a2 (idx + 1)

/-- `select_send_proofs` (unity.rs): reject amount 0; if a single proof
equals the amount, swap it to position 0 and take index 0; otherwise
take the shortest prefix whose sum reaches the amount, or fail with
`InsufficientFunds`. -/
def select_send_proofs (amount : Nat) (proofs : List SProof) :
    Except SelectErr (List SProof × Nat) :=
  if amount = 0 then .error .amountZero
  else
    match proofs.findIdx? (fun p => p.amount == amount) with
    | some p => .ok (listSwap proofs 0 p, 0)
    | none =>
      match walkTake amount proofs 0 0 with
      | some take => .ok (proofs, take)
      | none => .error .insufficientFunds

/-- Sum of the amounts of the first `n` proofs (the "running sum" after
`n` loop iterations). -/
def psum (l : List SProof) (n : Nat) : Nat :=
  ((l.take n).map SProof.amount).sum

/-! ## The redb counters table: `add_counter` (store/impl_redb.rs)

The counters table is a redb multimap from the mint URL to the JSON
serializations of `Record` values (counter.rs).  `serde_json` is
deterministic and injective on `Record`, so the set of stored JSON
strings is modelled as a duplicate-free list of records, and the JSON
equality used by multimap insert/remove is record equality. -/

/-- `Record` (counter.rs): the persisted counter row. -/
structure CRecord where
  mint : String
  keysetid : String
  counter : Nat
  ts : Nat
  pubkey : String
deriving DecidableEq, Repr

/-- redb multimap value insert: a no-op returning `true` when the exact
value is already present under the key. -/
def tableInsert (table : List CRecord) (r : CRecord) : List CRecord × Bool :=
  if r ∈ table then (table, true) else (table ++ [r], false)

/-- The deletion scan of `add_counter`: a stored record `t` survives
unless it lives under the new record's mint with the same pubkey and
keysetid and a strictly lower counter. -/
def survives (r t : CRecord) : Bool :=
  ! (t.mint == r.mint && t.pubkey == r.pubkey && t.keysetid == r.keysetid
      && decide (t.counter < r.counter))

/-- `Redb::add_counter` (impl_redb.rs): insert the record; when it was
not already present, delete the records under the same mint whose
pubkey and keysetid match and whose counter is strictly lower than the
new record's. -/
def add_counter (table : List CRecord) (r : CRecord) : List CRecord :=
  let ins := tableInsert table r
  if ins.2 then ins.1
  else ins.1.filter (survives r)

/-- The rows stored for one (mint_url, keyset_id, pubkey) key — what
`get_counters` surfaces for that key. -/
def keyRecords (table : List CRecord) (mint keysetid pubkey : String) :
    List CRecord :=
  table.filter (fun t =>
    t.mint == mint && t.keysetid == keysetid && t.pubkey == pubkey)

/-- Greatest counter stored for a key, `0` when the key has no row. -/
def maxCounter (table : List CRecord) (mint keysetid pubkey : String) : Nat :=
  ((keyRecords table mint keysetid pubkey).map CRecord.counter).foldr max 0

/-! ## `receive_token` entry checks (wallet/mod.rs) -/

/-- Observable outcome of the guard section of `Wallet::receive_token`,
before any network call. -/
inductive ReceiveOutcome where
  | emptyReturn
  | mintUrlUnmatched
  | swap (amount : Nat)
deriving DecidableEq, Repr

/-- The entry checks of `Wallet::receive_token`, in source order:
empty proof list returns `Ok(vec![])`; then a mint-URL mismatch is
rejected; then a zero total amount returns `Ok(vec![])`; otherwise the
swap is performed on the summed amount. -/
def receive_token_guard (pieceMint walletUrl : String) (amounts : List Nat) :
    ReceiveOutcome :=
  if amounts.isEmpty then .emptyReturn
  else if pieceMint ≠ walletUrl then .mintUrlUnmatched
  else if amounts.sum ≤ 0 then .emptyReturn
  else .swap amounts.sum

/-! ## Restore retention (wallet/mod.rs, `Wallet::restore`) -/

/-- NUT-07 proof state as reported by `check_proofs`. -/
inductive PState where
  | unspent
  | pending
  | spent
deriving DecidableEq, Repr

/-- The retention step of `Wallet::restore`: zip the candidate proofs
with the `check_proofs` states and keep those whose state is not
`Spent` (`filter(|(_, s)| s.state != State::Spent)`). -/
def restore_retain (candidates : List α) (states : List PState) : List α :=
  ((candidates.zip states).filter (fun c => c.2 ≠ PState.spent)).map Prod.fst

/-! ## Deterministic counter manager (wallet/counter.rs)

`Manager::records` rebuilds the per-keyset counters from the persisted
records; sessions advance an in-memory cursor (`Counter::next`) and
`commit`/`cancel` reconcile it with the record. -/

/-- A keyset as the counter manager sees it (id and currency unit);
keyset-id parsing is modelled as string identity on valid ids. -/
structure KeySetM where
  id : String
  unit : String
deriving DecidableEq, Repr

/-- A live counter (`Counter` in counter.rs): its record, the in-memory
cursor (`state`, initialised to the record's counter), and the index of
its keyset. -/
structure MCounter where
  record : CRecord
  state : Nat
  keysetidx : Nat
deriving DecidableEq, Repr

/-- `Record::to_counter`: locate the record's keyset; `none` when the
keyset is unknown (or the id fails to parse). -/
def record_to_counter (r : CRecord) (keysets : List KeySetM) : Option MCounter :=
  (keysets.findIdx? (fun k => k.id == r.keysetid)).map (fun i => ⟨r, r.counter, i⟩)

/-- `Record::new`: a fresh record with counter 0 at the current time
(`now`); an absent pubkey is stored as the empty string. -/
def record_new (mint keysetid : String) (pubkey : Option String) (now : Nat) :
    CRecord :=
  ⟨mint, keysetid, 0, now, pubkey.getD ""⟩

/-- Stable ascending insertion by record timestamp (`sort_by_key` on
`record.ts` is a stable sort). -/
def insertTs (c : MCounter) : List MCounter → List MCounter
  | [] => [c]
  | x :: xs =>
    if x.record.ts < c.record.ts then x :: insertTs c xs else c :: x :: xs

def sortByTs : List MCounter → List MCounter
  | [] => []
  | x :: xs => insertTs x (sortByTs xs)

/-- `Manager::records` (counter.rs): convert the persisted records to
counters, append a counter-0 record for every keyset not yet covered,
retire counters at or above `(2^31 - 1) - 50`, and order by first-seen
timestamp. -/
def manager_records (mint : String) (records : List CRecord)
    (keysets : List KeySetM) (now : Nat) : List MCounter :=
  let counters := records.filterMap (fun r => record_to_counter r keysets)
  let news := keysets.filter (fun ks =>
    ! counters.any (fun c =>
      match keysets[c.keysetidx]? with
      | some k => k.id == ks.id
      | none => false))
  let counters2 := counters ++
    news.filterMap (fun ks => record_to_counter (record_new mint ks.id none now) keysets)
  let counters3 := counters2.filter (fun c =>
    decide (c.record.counter < 2 ^ 31 - 1 - 50))
  sortByTs counters3

/-! ## Output generation and the swap retry loop (wallet/mod.rs)

A generated output is identified by its derivation index (which
determines the deterministic secret and blinding factor) and carries the
amount it was generated for. -/

/-- One entry of `PreMintSecrets` as the retry loop sees it: the
derivation index passed to `generate` and the output amount. -/
structure PreMintI where
  index : Nat
  amount : Nat
deriving DecidableEq, Repr

/-- Session counter state: the record's persisted counter and the
advancing cursor. -/
structure CounterSt where
  recordCounter : Nat
  state : Nat
deriving DecidableEq, Repr

/-- The generation loop shared by `split_amount2`/`split_blanks`:
`for amount in plan { let c = counter.count(); generate(c, amount) }`,
where `count` returns the cursor and post-increments it. -/
def genOutputs : List Nat → CounterSt → List PreMintI × CounterSt
  | [], c => ([], c)
  | a :: rest, c =>
    let out := genOutputs rest ⟨c.recordCounter, c.state + 1⟩
    (⟨c.state, a⟩ :: out.1, out.2)

/-- `ManagerCounter::commit`: the record counter catches up with the
cursor, and with a mnemonic present the advanced record is written to
the store. -/
def commitCounter (hasMnemonic : Bool) (c : CounterSt) (store : Nat) :
    CounterSt × Nat :=
  (⟨c.state, c.state⟩, if hasMnemonic then c.state else store)

/-- `ManagerCounter::cancel` (run on drop): the cursor falls back to the
record counter. -/
def cancelCounter (c : CounterSt) : CounterSt :=
  ⟨c.recordCounter, c.recordCounter⟩

/-- The mint's reply to a swap call, classified the way
`WalletError::is_outputs_already_signed_before` does: code 11000 or an
"outputs have already been signed before" detail is `alreadySigned`. -/
inductive SwapReply where
  | ok
  | alreadySigned
  | otherError
deriving DecidableEq, Repr

/-- Outcome of `try_to_call_swap`: the propagated reply, the session
counter at return, the stored record counter, the number of swap calls
made, and the outputs posted by each call. -/
structure TrySwapRun where
  reply : SwapReply
  counter : CounterSt
  store : Nat
  calls : Nat
  batches : List (List PreMintI)
deriving DecidableEq, Repr

/-- The body of `try_to_call_swap`'s `for i in (0..3).rev()` loop.  Each
iteration derives a fresh batch from the cursor and calls swap; with a
mnemonic, an `alreadySigned` error with `i > 0` retries, an
`alreadySigned` error at `i = 0` commits and surfaces, a success
commits, and any other error returns without commit.  `none` models the
`unreachable!()` after the loop. -/
def trySwapGo (hasMnemonic : Bool) (plan : List Nat) :
    List (Nat × SwapReply) → CounterSt → Nat → Nat → List (List PreMintI) →
      Option TrySwapRun
  | [], _, _, _, _ => none
  | (i, reply) :: rest, c, store, calls, batches =>
    let gen := genOutputs plan c
    let calls2 := calls + 1
    let batches2 := batches ++ [gen.1]
    if hasMnemonic then
      match reply with
      | .alreadySigned =>
        if 0 < i then trySwapGo hasMnemonic plan rest gen.2 store calls2 batches2
        else
          let cm := commitCounter true gen.2 store
          some ⟨.alreadySigned, cm.1, cm.2, calls2, batches2⟩
      | .ok =>
        let cm := commitCounter true gen.2 store
        some ⟨.ok, cm.1, cm.2, calls2, batches2⟩
      | .otherError => some ⟨.otherError, gen.2, store, calls2, batches2⟩
    else some ⟨reply, gen.2, store, calls2, batches2⟩

/-- `try_to_call_swap` (wallet/mod.rs): at most three swap calls, the
mint answering the `n`-th call with `r‹n›`; `plan` is the output plan of
`split_amount2` (identical on every attempt, the amounts being fixed). -/
def try_to_call_swap (r0 r1 r2 : SwapReply) (hasMnemonic : Bool)
    (plan : List Nat) (c : CounterSt) (store : Nat) : Option TrySwapRun :=
  trySwapGo hasMnemonic plan [(2, r0), (1, r1), (0, r2)] c store 0 []

/-! ## Blank outputs and the melt wire amounts (wallet/mod.rs) -/

/-- The on-wire `BlindedMessage` of an output: its amount field and the
derivation index standing for the blinded point. -/
structure BlindedMsgM where
  amount : Nat
  index : Nat
deriving DecidableEq, Repr

/-- A `PreMint` (cashu crate, constructed literally in
`ManagerCounter::generate`): the blinded message plus the secret's
derivation index and the `PreMint`'s own amount field. -/
structure PreMintM where
  blindedMessage : BlindedMsgM
  index : Nat
  amount : Nat
deriving DecidableEq, Repr

/-- `ManagerCounter::generate(count, amount)`: builds
`BlindedMessage::new(amount, keyset.id, blinded)` and
`PreMint { blinded_message, secret, r, amount }`. -/
def generatePreMint (count amount : Nat) : PreMintM :=
  ⟨⟨amount, count⟩, count, amount⟩

/-- `PreMintSecretsHyper::split_blanks(count)`: `count` zero-amount
outputs at consecutive indices. -/
def split_blanks (count : Nat) (c0 : Nat) : List PreMintM :=
  (List.range count).map (fun i => generatePreMint (c0 + i) 0)

/-- `PreMintSecretsHyper::split_blank(fee_reserve)`:
`max(ceil(log2(fee_reserve)), 1)` blank outputs; `Nat.clog 2` is the
exact value of the `(fee as f64).log2().ceil()` computation on the u64
amounts in range. -/
def split_blank (feeReserve : Nat) (c0 : Nat) : List PreMintM :=
  split_blanks (max (Nat.clog 2 feeReserve) 1) c0

/-- The blank-output preparation inside `Wallet::melt`: after
generating the blanks, `for p in &mut outputs.secrets { p.amount =
1.into(); }` sets each `PreMint`'s own amount field to 1. -/
def melt_blank_outputs (feeReserve : Nat) (c0 : Nat) : List PreMintM :=
  (split_blank feeReserve c0).map (fun p => { p with amount := 1 })

/-- What `Wallet::melt` posts to the mint: `BlindedMessages::new`
serializes `e.blinded_message` for each entry. -/
def melt_posted_outputs (feeReserve : Nat) (c0 : Nat) : List BlindedMsgM :=
  (melt_blank_outputs feeReserve c0).map PreMintM.blindedMessage

/-! ## `check_pendings`, Cashu kind (unity.rs)

A pending out-direction Cashu transaction is reduced to the proofs
decoded from its token (identified by their `Y` points, on which the
mint reports a state). -/

/-- The transaction status values of types.rs. -/
inductive TStatus where
  | pending
  | success
  | failed
  | expired
deriving DecidableEq, Repr

/-- A pending Cashu transaction: the proofs decoded from its token. -/
structure PendTx where
  proofs : List Nat
deriving DecidableEq, Repr

/-- The per-batch status update of `check_pendings`: slice the returned
states by each transaction's proof count (the `offset` walk); a
transaction whose slice contains a `Spent` state becomes `Success` and
is counted, the others keep `Pending`. -/
def flushStates : List PState → List Nat → List TStatus × Nat
  | _, [] => ([], 0)
  | states, count :: rest =>
    let pss := states.take count
    let isSpent := pss.any (fun s => s == PState.spent)
    let out := flushStates (states.drop count) rest
    ((if isSpent then TStatus.success else TStatus.pending) :: out.1,
      (if isSpent then 1 else 0) + out.2)

/-- The Cashu-kind loop of `UnitedWallet::check_pendings` for one mint:
accumulate decoded proofs and per-transaction counts; once the last
transaction is reached or the accumulated proofs reach the batch size,
call `check_proofs` (modelled by the per-proof oracle `stateOf`) and
update the accumulated transactions. -/
def check_pendings_go (stateOf : Nat → PState) (batchSize : Nat) :
    List PendTx → List Nat → List Nat → List TStatus × Nat
  | [], _, _ => ([], 0)
  | tx :: rest, ps, tokens =>
    let ps2 := ps ++ tx.proofs
    let tokens2 := tokens ++ [tx.proofs.length]
    if rest.isEmpty || batchSize ≤ ps2.length then
      let flush := flushStates (ps2.map stateOf) tokens2
      let out := check_pendings_go stateOf batchSize rest [] []
      (flush.1 ++ out.1, flush.2 + out.2)
    else check_pendings_go stateOf batchSize rest ps2 tokens2

/-- `check_pendings`, Cashu kind, for one mint's pending transactions
(the source fixes the batch size at 64): final statuses in order and
the number of updated transactions. -/
def check_pendings_cashu (stateOf : Nat → PState) (txs : List PendTx) :
    List TStatus × Nat :=
  check_pendings_go stateOf 64 txs [] []

/-- Specification formula for the Cashu-kind pending check, from the
spec sentence: a transaction becomes `Success` iff any of its proofs is
`Spent` (staying `Pending` otherwise), and the update count counts each
updated transaction once. -/
def check_pendings_formula (stateOf : Nat → PState) (txs : List PendTx) :
    List TStatus × Nat :=
  (txs.map (fun tx =>
      if tx.proofs.any (fun p => stateOf p == PState.spent)
      then TStatus.success else TStatus.pending),
    (txs.filter (fun tx =>
      tx.proofs.any (fun p => stateOf p == PState.spent))).length)

/-! ## `Token::from_str` dispatch (wallet/token.rs)

Rust `&str` length and slicing are byte-based, so token strings are
modelled as byte lists (the UTF-8 encoding of the input).  The slice
`&s[..6]` is not an infallible byte take: Rust range-indexing a `str`
asserts that byte offset 6 is a UTF-8 character boundary and panics
when it falls inside a multi-byte character, so the model carries that
panic as a distinct outcome.  The v3/v4 body parsers are abstract here:
the claims about `Token::from_str` concern only inputs it settles
before reaching either parser. -/

/-- Byte string of an ASCII literal. -/
def asciiBytes (s : String) : List UInt8 :=
  s.data.map (fun c => UInt8.ofNat c.toNat)

/-- `Error::UnsupportedToken` and the pass-through errors of the two
body parsers. -/
inductive TokenParseErr where
  | unsupportedToken
  | bodyError
deriving DecidableEq, Repr

/-- `str::is_char_boundary(i)` on the byte encoding: offsets 0 and
`len` are boundaries; otherwise the byte at `i` must not be a UTF-8
continuation byte (`0x80..=0xBF`). -/
def isCharBoundary (s : List UInt8) (i : Nat) : Bool :=
  if i = 0 then true
  else
    match s[i]? with
    | some b => decide (b.toNat < 128) || decide (192 ≤ b.toNat)
    | none => decide (i = s.length)

/-- What a call of `Token::from_str` can do: return a token, return an
error, or die on the `&s[..6]` boundary assertion. -/
inductive FromStrOutcome (α : Type) where
  | ok : α → FromStrOutcome α
  | err : TokenParseErr → FromStrOutcome α
  | panicked : FromStrOutcome α
deriving DecidableEq, Repr

/-- `Token::from_str` (token.rs): inputs shorter than 7 bytes are
`UnsupportedToken`; then `&s[..6]` is taken — panicking when byte
offset 6 splits a character — and the dispatch on those six bytes
rejects any prefix other than "cashuA"/"cashuB" as `UnsupportedToken`.
`parseV3`/`parseV4` stand for `TokenV3::from_str`/`TokenV4::from_str`
on the full input. -/
def token_from_str (parseV3 parseV4 : List UInt8 → Except TokenParseErr α)
    (s : List UInt8) : FromStrOutcome α :=
  if s.length < 7 then .err .unsupportedToken
  else if isCharBoundary s 6 then
    let p6 := s.take 6
    if p6 = asciiBytes "cashuB" then
      match parseV4 s with
      | .ok t => .ok t
      | .error e => .err e
    else if p6 = asciiBytes "cashuA" then
      match parseV3 s with
      | .ok t => .ok t
      | .error e => .err e
    else .err .unsupportedToken
  else .panicked

/-! ## Mint URLs (wallet/token.rs `MintUrl`)

The `url::Url` values the wallet builds carry an http(s) origin and a
path; for the mint-URL subset in use (no query, fragment, userinfo or
dot segments) the crate's parser splits scheme "://" authority from the
path and normalises an empty path to "/".  `urlParse` models exactly
that subset; percent- and case-normalisation are outside the modelled
subset and are not exercised by any theorem. -/

structure UrlM where
  origin : String
  path : String
deriving DecidableEq, Repr

/-- `Url::as_str`. -/
def UrlM.asStr (u : UrlM) : String := u.origin ++ u.path

/-- Scan for the "://" separator, returning scheme and remainder. -/
def splitSchemeAux (acc : List Char) : List Char → Option (List Char × List Char)
  | [] => none
  | ':' :: '/' :: '/' :: rest => some (acc.reverse, rest)
  | ch :: rest => splitSchemeAux (ch :: acc) rest

/-- Split the authority from the path (the path starts at the first
'/' after the authority). -/
def splitAuthPath : List Char → List Char × List Char
  | [] => ([], [])
  | '/' :: rest => ([], '/' :: rest)
  | ch :: rest =>
    let out := splitAuthPath rest
    (ch :: out.1, out.2)

/-- `url::Url` parsing on the mint-URL subset: scheme "://" authority
[path]; an absent path serialises as "/". -/
def urlParse (s : String) : Option UrlM :=
  match splitSchemeAux [] s.data with
  | none => none
  | some (scheme, rest) =>
    if scheme.isEmpty then none
    else
      let ap := splitAuthPath rest
      if ap.1.isEmpty then none
      else
        let path := if ap.2.isEmpty then ['/'] else ap.2
        some ⟨⟨scheme ++ (':' :: '/' :: '/' :: ap.1)⟩, ⟨path⟩⟩

/-- `From<Url> for MintUrl`: append "/" when the path does not end with
one. -/
def mintUrlOfUrl (u : UrlM) : UrlM :=
  match u.path.data.getLast? with
  | some '/' => u
  | _ => ⟨u.origin, u.path ++ "/"⟩

/-- `MintUrl::from_str`: parse, then normalise. -/
def mint_url_from_str (s : String) : Option UrlM :=
  (urlParse s).map mintUrlOfUrl

/-- Rust `trim_end_matches("/")`: drop every trailing '/'. -/
def trimEndSlashes (s : String) : String :=
  ⟨(s.data.reverse.dropWhile (fun c => c = '/')).reverse⟩

/-- `Serialize for MintUrl`: the URL string without its trailing
slashes. -/
def mint_url_serialize (u : UrlM) : String :=
  trimEndSlashes u.asStr

/-- `Deserialize for MintUrl`: parse the string and re-normalise. -/
def mint_url_deserialize (s : String) : Option UrlM :=
  mint_url_from_str s

/-- A mint URL that survives the serialize-then-parse round trip (the
condition under which token round-trips are exact). -/
def urlRoundTrips (u : UrlM) : Prop :=
  mint_url_deserialize (mint_url_serialize u) = some u

instance (u : UrlM) : Decidable (urlRoundTrips u) := by
  unfold urlRoundTrips
  infer_instance

/-! ## Token wire values (wallet/token.rs)

`serde_json`/`ciborium` plus base64 are the text transport of the two
token formats; they are external libraries contracted to be faithful
codecs of the structured value (spec §6), so the wire is modelled at
the value level by `Json` trees (CBOR maps with the short v4 keys use
the same tree shape).  What the repository itself contributes — the
derived serde shape of the token structs, the custom `MintUrl`
serializer, and the v4 empty-token rejection — is modelled exactly. -/

inductive Json where
  | str : String → Json
  | num : Nat → Json
  | arr : List Json → Json
  | obj : List (String × Json) → Json

/-- First value under a key in a JSON object. -/
def jlookup (kvs : List (String × Json)) (k : String) : Option Json :=
  match kvs with
  | [] => none
  | (k2, v) :: rest => if k2 == k then some v else jlookup rest k

/-- Decode a whole array elementwise, failing if any element fails. -/
def decodeList (f : Json → Option α) : List Json → Option (List α)
  | [] => some []
  | j :: rest =>
    match f j, decodeList f rest with
    | some x, some xs => some (x :: xs)
    | _, _ => none

/-- A v3 wire proof (cashu `Proof`): keyset id, amount, secret, the
signature point `C`, and the optional witness/dleq payloads carried as
their JSON form. -/
structure ProofW where
  keysetId : String
  amount : Nat
  secret : String
  c : String
  witnessJ : Option String
  dleqJ : Option String
deriving DecidableEq, Repr

/-- Serde encoding of `Proof`: `amount`, `id`, `secret`, `C`, and the
two optional fields skipped when absent. -/
def encodeProof (p : ProofW) : Json :=
  .obj ([("amount", .num p.amount), ("id", .str p.keysetId),
      ("secret", .str p.secret), ("C", .str p.c)] ++
    (match p.witnessJ with
      | some w => [("witness", Json.str w)]
      | none => []) ++
    (match p.dleqJ with
      | some d => [("dleq", Json.str d)]
      | none => []))

/-- Decode an optional string field: absent is `none`, a string is
`some`, any other shape fails. -/
def decodeOptField (kvs : List (String × Json)) (k : String) :
    Option (Option String) :=
  match jlookup kvs k with
  | none => some none
  | some (.str s) => some (some s)
  | some _ => none

def decodeProof : Json → Option ProofW
  | .obj kvs =>
    match jlookup kvs "amount", jlookup kvs "id", jlookup kvs "secret",
        jlookup kvs "C", decodeOptField kvs "witness",
        decodeOptField kvs "dleq" with
    | some (.num a), some (.str i), some (.str s), some (.str c),
        some w, some d => some ⟨i, a, s, c, w, d⟩
    | _, _, _, _, _, _ => none
  | _ => none

/-- `MintProofs`: one mint's URL and its proofs. -/
structure MintProofsW where
  mint : UrlM
  proofs : List ProofW
deriving DecidableEq, Repr

def encodeMintProofs (mp : MintProofsW) : Json :=
  .obj [("mint", .str (mint_url_serialize mp.mint)),
    ("proofs", .arr (mp.proofs.map encodeProof))]

def decodeMintProofs : Json → Option MintProofsW
  | .obj kvs =>
    match jlookup kvs "mint", jlookup kvs "proofs" with
    | some (.str m), some (.arr ps) =>
      match mint_url_deserialize m, decodeList decodeProof ps with
      | some u, some proofs => some ⟨u, proofs⟩
      | _, _ => none
    | _, _ => none
  | _ => none

/-- `TokenV3Generic`: the per-mint pieces plus optional memo and unit. -/
structure TokenV3W where
  token : List MintProofsW
  memo : Option String
  unit : Option String
deriving DecidableEq, Repr

def encodeTokenV3 (t : TokenV3W) : Json :=
  .obj ([("token", .arr (t.token.map encodeMintProofs))] ++
    (match t.memo with
      | some m => [("memo", Json.str m)]
      | none => []) ++
    (match t.unit with
      | some u => [("unit", Json.str u)]
      | none => []))

def decodeTokenV3 : Json → Option TokenV3W
  | .obj kvs =>
    match jlookup kvs "token", decodeOptField kvs "memo",
        decodeOptField kvs "unit" with
    | some (.arr ts), some memo, some unit =>
      match decodeList decodeMintProofs ts with
      | some token => some ⟨token, memo, unit⟩
      | none => none
    | _, _, _ => none
  | _ => none

/-- A v4 wire proof (cashu `ProofV4`, CBOR keys `a`/`s`/`c`). -/
structure ProofV4W where
  amount : Nat
  secret : String
  c : String
  witnessJ : Option String
  dleqJ : Option String
deriving DecidableEq, Repr

def encodeProofV4 (p : ProofV4W) : Json :=
  .obj ([("a", .num p.amount), ("s", .str p.secret), ("c", .str p.c)] ++
    (match p.witnessJ with
      | some w => [("witness", Json.str w)]
      | none => []) ++
    (match p.dleqJ with
      | some d => [("d", Json.str d)]
      | none => []))

def decodeProofV4 : Json → Option ProofV4W
  | .obj kvs =>
    match jlookup kvs "a", jlookup kvs "s", jlookup kvs "c",
        decodeOptField kvs "witness", decodeOptField kvs "d" with
    | some (.num a), some (.str s), some (.str c), some w, some d =>
      some ⟨a, s, c, w, d⟩
    | _, _, _, _, _ => none
  | _ => none

/-- `TokenV4Token`: a keyset id (`i`) and its proofs (`p`). -/
structure TokenV4TokenW where
  keysetId : String
  proofs : List ProofV4W
deriving DecidableEq, Repr

def encodeTokenV4Token (tt : TokenV4TokenW) : Json :=
  .obj [("i", .str tt.keysetId), ("p", .arr (tt.proofs.map encodeProofV4))]

def decodeTokenV4Token : Json → Option TokenV4TokenW
  | .obj kvs =>
    match jlookup kvs "i", jlookup kvs "p" with
    | some (.str i), some (.arr ps) =>
      match decodeList decodeProofV4 ps with
      | some proofs => some ⟨i, proofs⟩
      | none => none
    | _, _ => none
  | _ => none

/-- `TokenV4` (this repo): mint URL `m`, optional unit `u` and memo
`d`, and the per-keyset proofs `t`. -/
structure TokenV4W where
  mintUrl : UrlM
  unit : Option String
  memo : Option String
  token : List TokenV4TokenW
deriving DecidableEq, Repr

def encodeTokenV4 (t : TokenV4W) : Json :=
  .obj ([("m", .str (mint_url_serialize t.mintUrl))] ++
    (match t.unit with
      | some u => [("u", Json.str u)]
      | none => []) ++
    (match t.memo with
      | some d => [("d", Json.str d)]
      | none => []) ++
    [("t", .arr (t.token.map encodeTokenV4Token))])

/-- `TokenV4::from_str` after the CBOR decode: reject a token whose
pieces carry no proof at all (`Error::ProofsRequired`). -/
def decodeTokenV4 : Json → Option TokenV4W
  | .obj kvs =>
    match jlookup kvs "m", decodeOptField kvs "u", decodeOptField kvs "d",
        jlookup kvs "t" with
    | some (.str m), some unit, some memo, some (.arr ts) =>
      match mint_url_deserialize m, decodeList decodeTokenV4Token ts with
      | some u, some token =>
        if (token.map (fun tt => tt.proofs.length)).sum = 0 then none
        else some ⟨u, unit, memo, token⟩
      | _, _ => none
    | _, _, _, _ => none
  | _ => none

end CashuWallet

namespace CashuWallet

/-! ## Theorems: C3 (`select_send_proofs`) -/

theorem walkTake_shift (t : Nat) (l : List SProof) (a i : Nat) :
    walkTake t l a i = (walkTake t l a 0).map (· + i) := by
  induction l generalizing a i with
  | nil => simp [walkTake]
  | cons p rest ih =>
    simp only [walkTake]
    by_cases h : t ≤ a + p.amount
    · simp [h]
    · simp only [if_neg h]
      rw [ih (a + p.amount) (i + 1), ih (a + p.amount) 1]
      cases walkTake t rest (a + p.amount) 0 with
      | none => simp
      | some k => simp [Option.map]; omega

theorem walkTake_none_iff (t : Nat) (l : List SProof) (a : Nat) (ha : a < t) :
    walkTake t l a 0 = none ↔ a + (l.map SProof.amount).sum < t := by
  induction l generalizing a with
  | nil => simp [walkTake, ha]
  | cons p rest ih =>
    simp only [walkTake, List.map_cons, List.sum_cons]
    by_cases h : t ≤ a + p.amount
    · simp only [if_pos h]
      constructor
      · intro hc; cases hc
      · intro hlt; exact absurd hlt (by omega)
    · simp only [if_neg h]
      push_neg at h
      rw [walkTake_shift, Option.map_eq_none', ih (a + p.amount) h]
      omega

theorem walkTake_some_spec (t : Nat) (l : List SProof) (a : Nat) (ha : a < t)
    (k : Nat) (hk : walkTake t l a 0 = some k) :
    k < l.length ∧ t ≤ a + psum l (k + 1) ∧ ∀ j < k, a + psum l (j + 1) < t := by
  induction l generalizing a k with
  | nil => simp [walkTake] at hk
  | cons p rest ih =>
    simp only [walkTake] at hk
    by_cases h : t ≤ a + p.amount
    · simp only [if_pos h] at hk
      cases hk
      refine ⟨by simp, ?_, by omega⟩
      simp [psum]
      omega
    · simp only [if_neg h] at hk
      rw [walkTake_shift] at hk
      cases hw : walkTake t rest (a + p.amount) 0 with
      | none => simp [hw] at hk
      | some k' =>
        simp only [hw, Option.map_some'] at hk
        cases hk
        push_neg at h
        have ⟨h1, h2, h3⟩ := ih (a + p.amount) h k' hw
        refine ⟨by simpa using Nat.add_lt_add_right h1 1, ?_, ?_⟩
        · simpa [psum, Nat.add_assoc] using h2
        · intro j hj
          cases j with
          | zero => simpa [psum] using h
          | succ j' =>
            have := h3 j' (by omega)
            simpa [psum, Nat.add_assoc] using this

/-- C3.  `select_send_proofs(amount, proofs)`: amount 0 fails; an exact
single-proof match is swapped to position 0 with take index 0; otherwise
the returned take index is the smallest index at which the running sum
reaches the amount, the proofs staying in stored order; and when the
total is below the amount the call fails with `InsufficientFunds`. -/
theorem select_send_proofs_spec (amount : Nat) (proofs : List SProof) :
    (amount = 0 → select_send_proofs amount proofs = .error .amountZero)
    ∧ (∀ i, amount ≠ 0 →
        proofs.findIdx? (fun p => p.amount == amount) = some i →
        select_send_proofs amount proofs = .ok (listSwap proofs 0 i, 0) ∧
          (listSwap proofs 0 i)[0]? = proofs[i]? ∧
          (listSwap proofs 0 i)[i]? = proofs[0]?)
    ∧ (amount ≠ 0 →
        proofs.findIdx? (fun p => p.amount == amount) = none →
        amount ≤ psum proofs proofs.length →
        ∃ k, select_send_proofs amount proofs = .ok (proofs, k) ∧
          amount ≤ psum proofs (k + 1) ∧ ∀ j < k, psum proofs (j + 1) < amount)
    ∧ (psum proofs proofs.length < amount →
        select_send_proofs amount proofs = .error .insufficientFunds) := by
  refine ⟨fun h0 => by simp [select_send_proofs, h0], ?_, ?_, ?_⟩
  · intro i hne hidx
    have hi : i < proofs.length := List.findIdx?_eq_some_iff_findIdx_eq.mp hidx |>.1
    have h0 : 0 < proofs.length := Nat.lt_of_le_of_lt (Nat.zero_le i) hi
    refine ⟨by simp [select_send_proofs, hne, hidx], ?_, ?_⟩
    · unfold listSwap
      rw [List.getElem?_eq_getElem h0, List.getElem?_eq_getElem hi]
      by_cases hzi : i = 0
      · subst hzi
        rw [List.getElem?_set_self (by simpa)]
      · rw [List.getElem?_set_ne (by omega), List.getElem?_set_self (by simpa)]
    · unfold listSwap
      rw [List.getElem?_eq_getElem h0, List.getElem?_eq_getElem hi]
      rw [List.getElem?_set_self (by simpa)]
  · intro hne hidx hsum
    have ha : 0 < amount := Nat.pos_of_ne_zero hne
    cases hw : walkTake amount proofs 0 0 with
    | none =>
      exfalso
      have h1 := (walkTake_none_iff amount proofs 0 ha).mp hw
      have h2 : psum proofs proofs.length = (proofs.map SProof.amount).sum := by
        simp [psum, List.take_length]
      omega
    | some k =>
      have ⟨h1, h2, h3⟩ := walkTake_some_spec amount proofs 0 ha k hw
      exact ⟨k, by simp [select_send_proofs, hne, hidx, hw], by omega,
        fun j hj => by have := h3 j hj; omega⟩
  · intro hlt
    have ha : amount ≠ 0 := by
      intro h; subst h; exact absurd hlt (by omega)
    have hidx : proofs.findIdx? (fun p => p.amount == amount) = none := by
      rw [List.findIdx?_eq_none_iff]
      intro p hp
      have hle : p.amount ≤ psum proofs proofs.length := by
        have : p.amount ≤ (proofs.map SProof.amount).sum :=
          List.single_le_sum (fun x _ => Nat.zero_le x) _ (List.mem_map_of_mem _ hp)
        simpa [psum, List.take_length] using this
      have hne : p.amount ≠ amount := by omega
      simpa using hne
    have hw : walkTake amount proofs 0 0 = none := by
      rw [walkTake_none_iff amount proofs 0 (Nat.pos_of_ne_zero ha)]
      simpa [psum, List.take_length] using hlt
    simp [select_send_proofs, ha, hidx, hw]

/-- C3 witness: the spec theorem applied at concrete inputs, one per
hypothesis-bearing conjunct. -/
theorem select_send_proofs_spec_witness :
    (select_send_proofs 0 [] = .error .amountZero)
    ∧ (select_send_proofs 2 [⟨10, 1⟩, ⟨11, 2⟩] = .ok ([⟨11, 2⟩, ⟨10, 1⟩], 0))
    ∧ (∃ k, select_send_proofs 3 [⟨10, 1⟩, ⟨11, 2⟩, ⟨12, 4⟩] =
        .ok ([⟨10, 1⟩, ⟨11, 2⟩, ⟨12, 4⟩], k) ∧
        3 ≤ psum [⟨10, 1⟩, ⟨11, 2⟩, ⟨12, 4⟩] (k + 1) ∧
        ∀ j < k, psum [⟨10, 1⟩, ⟨11, 2⟩, ⟨12, 4⟩] (j + 1) < 3)
    ∧ (select_send_proofs 9 [⟨10, 1⟩, ⟨11, 2⟩] = .error .insufficientFunds) := by
  refine ⟨(select_send_proofs_spec 0 []).1 rfl, ?_, ?_, ?_⟩
  · exact ((select_send_proofs_spec 2 [⟨10, 1⟩, ⟨11, 2⟩]).2.1 1 (by decide)
      (by decide)).1
  · exact (select_send_proofs_spec 3 [⟨10, 1⟩, ⟨11, 2⟩, ⟨12, 4⟩]).2.2.1
      (by decide) (by decide) (by decide)
  · exact (select_send_proofs_spec 9 [⟨10, 1⟩, ⟨11, 2⟩]).2.2.2 (by decide)

/-! ## Theorems: C2 (`add_counter` / counter invariant) -/

theorem le_foldrMax {l : List Nat} {x : Nat} (h : x ∈ l) :
    x ≤ l.foldr max 0 := by
  induction l with
  | nil => cases h
  | cons a t ih =>
    rcases List.mem_cons.mp h with rfl | h'
    · exact Nat.le_max_left _ _
    · exact (ih h').trans (Nat.le_max_right _ _)

theorem foldrMax_le {l : List Nat} {n : Nat} (h : ∀ x ∈ l, x ≤ n) :
    l.foldr max 0 ≤ n := by
  induction l with
  | nil => simp
  | cons a t ih =>
    exact max_le (h a (by simp)) (ih fun x hx => h x (List.mem_cons_of_mem _ hx))

theorem mem_keyRecords {table : List CRecord} {m k p : String} {t : CRecord} :
    t ∈ keyRecords table m k p ↔
      t ∈ table ∧ t.mint = m ∧ t.keysetid = k ∧ t.pubkey = p := by
  simp [keyRecords, List.mem_filter, and_assoc]

theorem survives_eq_false {r t : CRecord} :
    survives r t = false ↔
      t.mint = r.mint ∧ t.pubkey = r.pubkey ∧ t.keysetid = r.keysetid ∧
        t.counter < r.counter := by
  simp [survives, and_assoc]

theorem add_counter_of_mem {table : List CRecord} {r : CRecord} (h : r ∈ table) :
    add_counter table r = table := by
  simp [add_counter, tableInsert, h]

theorem add_counter_of_not_mem {table : List CRecord} {r : CRecord}
    (h : r ∉ table) :
    add_counter table r = (table ++ [r]).filter (survives r) := by
  simp [add_counter, tableInsert, h]

theorem counter_le_maxCounter {table : List CRecord} {t : CRecord}
    {m k p : String} (h : t ∈ keyRecords table m k p) :
    t.counter ≤ maxCounter table m k p :=
  le_foldrMax (List.mem_map_of_mem _ h)

theorem survives_self (r : CRecord) : survives r r = true := by
  simp [survives]

/-- C2 counterexample.  Replaying `add_counter` with a lower counter for
the same (mint, keysetid, pubkey) key inserts a second row and deletes
nothing, so two `CounterRecord`s coexist for one key — refuting the
claimed at-most-one invariant. -/
theorem add_counter_duplicate_key :
    (keyRecords
        (add_counter (add_counter [] ⟨"m", "k", 5, 0, "p"⟩)
          ⟨"m", "k", 3, 1, "p"⟩)
        "m" "k" "p").length = 2 := by
  decide

/-- C2 as amended.  For every (mint, keysetid, pubkey) key, the largest
stored counter never decreases under `add_counter`; replaying a record
whose counter is at most the key's current largest leaves that largest
value unchanged; and adding a record whose counter strictly exceeds
every stored counter of its key leaves exactly one record for the key.
More than one record can coexist for a key after a lower-counter
replay. -/
theorem add_counter_spec (table : List CRecord) (r : CRecord) :
    (∀ m k p, maxCounter table m k p ≤ maxCounter (add_counter table r) m k p)
    ∧ (r.counter ≤ maxCounter table r.mint r.keysetid r.pubkey →
        maxCounter (add_counter table r) r.mint r.keysetid r.pubkey =
          maxCounter table r.mint r.keysetid r.pubkey)
    ∧ ((∀ t ∈ keyRecords table r.mint r.keysetid r.pubkey,
          t.counter < r.counter) →
        keyRecords (add_counter table r) r.mint r.keysetid r.pubkey = [r]) := by
  have hmono : ∀ m k p,
      maxCounter table m k p ≤ maxCounter (add_counter table r) m k p := by
    intro m k p
    by_cases hr : r ∈ table
    · rw [add_counter_of_mem hr]
    · rw [add_counter_of_not_mem hr]
      apply foldrMax_le
      intro x hx
      obtain ⟨t, ht, rfl⟩ := List.mem_map.mp hx
      obtain ⟨htab, hm, hk, hp⟩ := mem_keyRecords.mp ht
      by_cases hs : survives r t = true
      · refine counter_le_maxCounter (mem_keyRecords.mpr ⟨?_, hm, hk, hp⟩)
        exact List.mem_filter.mpr ⟨List.mem_append_left _ htab, hs⟩
      · have hf := survives_eq_false.mp (Bool.eq_false_iff.mpr hs)
        obtain ⟨hm2, hp2, hk2, hc2⟩ := hf
        have hrmem : r ∈ keyRecords ((table ++ [r]).filter (survives r)) m k p := by
          refine mem_keyRecords.mpr ⟨?_, by rw [← hm2, hm], by rw [← hk2, hk],
            by rw [← hp2, hp]⟩
          exact List.mem_filter.mpr
            ⟨List.mem_append_right _ (by simp), survives_self r⟩
        exact le_of_lt (lt_of_lt_of_le hc2 (counter_le_maxCounter hrmem))
  refine ⟨hmono, ?_, ?_⟩
  · intro hle
    refine le_antisymm ?_ (hmono _ _ _)
    by_cases hr : r ∈ table
    · rw [add_counter_of_mem hr]
    · rw [add_counter_of_not_mem hr]
      apply foldrMax_le
      intro x hx
      obtain ⟨t, ht, rfl⟩ := List.mem_map.mp hx
      obtain ⟨htab, hm, hk, hp⟩ := mem_keyRecords.mp ht
      have htab2 := (List.mem_filter.mp htab).1
      rcases List.mem_append.mp htab2 with h1 | h1
      · exact counter_le_maxCounter (mem_keyRecords.mpr ⟨h1, hm, hk, hp⟩)
      · have : t = r := by simpa using h1
        subst this
        exact hle
  · intro hall
    have hr : r ∉ table := by
      intro hmem
      exact absurd (hall r (mem_keyRecords.mpr ⟨hmem, rfl, rfl, rfl⟩))
        (lt_irrefl _)
    rw [add_counter_of_not_mem hr]
    have hsplit : (table ++ [r]).filter (survives r) =
        table.filter (survives r) ++ [r] := by
      rw [List.filter_append]
      simp [survives_self r]
    rw [hsplit]
    unfold keyRecords
    rw [List.filter_append]
    have hleft : (table.filter (survives r)).filter
        (fun t => t.mint == r.mint && t.keysetid == r.keysetid &&
          t.pubkey == r.pubkey) = [] := by
      rw [List.filter_eq_nil_iff]
      intro t ht
      obtain ⟨htab, hsurv⟩ := List.mem_filter.mp ht
      intro hkey
      simp only [Bool.and_eq_true, beq_iff_eq] at hkey
      obtain ⟨⟨hm, hk⟩, hp⟩ := hkey
      have hlt := hall t (mem_keyRecords.mpr ⟨htab, hm, hk, hp⟩)
      have : survives r t = false :=
        survives_eq_false.mpr ⟨hm, hp, hk, hlt⟩
      rw [this] at hsurv
      cases hsurv
    rw [hleft]
    simp

/-- C2 witness: the amended invariant applied to a concrete table. -/
theorem add_counter_spec_witness :
    (maxCounter [⟨"m", "k", 5, 0, "p"⟩] "m" "k" "p" ≤
      maxCounter (add_counter [⟨"m", "k", 5, 0, "p"⟩] ⟨"m", "k", 3, 1, "p"⟩)
        "m" "k" "p")
    ∧ (maxCounter (add_counter [⟨"m", "k", 5, 0, "p"⟩] ⟨"m", "k", 3, 1, "p"⟩)
        "m" "k" "p" = maxCounter [⟨"m", "k", 5, 0, "p"⟩] "m" "k" "p")
    ∧ (keyRecords (add_counter [⟨"m", "k", 5, 0, "p"⟩] ⟨"m", "k", 9, 1, "p"⟩)
        "m" "k" "p" = [⟨"m", "k", 9, 1, "p"⟩]) := by
  refine ⟨(add_counter_spec [⟨"m", "k", 5, 0, "p"⟩] ⟨"m", "k", 3, 1, "p"⟩).1
      "m" "k" "p", ?_, ?_⟩
  · exact (add_counter_spec [⟨"m", "k", 5, 0, "p"⟩] ⟨"m", "k", 3, 1, "p"⟩).2.1
      (by decide)
  · refine (add_counter_spec [⟨"m", "k", 5, 0, "p"⟩] ⟨"m", "k", 9, 1, "p"⟩).2.2
      ?_
    intro t ht
    have : t = ⟨"m", "k", 5, 0, "p"⟩ := by
      have := mem_keyRecords.mp ht |>.1
      simpa using this
    subst this
    decide

/-! ## Theorems: C6 (restore retention) -/

/-- C6 counterexample.  A restore candidate whose reported state is
`Pending` — not `Unspent` — is still retained by the restore loop, so
the claim that only `Unspent` candidates are retained is false. -/
theorem restore_retain_keeps_pending :
    restore_retain [(0 : Nat)] [PState.pending] = [0] ∧
      PState.pending ≠ PState.unspent := by
  constructor
  · rfl
  · decide

/-- C6 as amended.  The retained candidates are exactly those whose
reported state is not `Spent`: both `Unspent` and `Pending` survive. -/
theorem restore_retain_spec (cands : List α) (states : List PState) (x : α) :
    x ∈ restore_retain cands states ↔
      ∃ i, ∃ (h1 : i < cands.length) (h2 : i < states.length),
        cands.get ⟨i, h1⟩ = x ∧ states.get ⟨i, h2⟩ ≠ PState.spent := by
  unfold restore_retain
  rw [List.mem_map]
  constructor
  · rintro ⟨⟨c, st⟩, hm, rfl⟩
    rw [List.mem_filter] at hm
    obtain ⟨hz, hns⟩ := hm
    obtain ⟨i, hi, hget⟩ := List.mem_iff_getElem.mp hz
    rw [List.length_zip] at hi
    have h1 : i < cands.length := lt_of_lt_of_le hi (Nat.min_le_left _ _)
    have h2 : i < states.length := lt_of_lt_of_le hi (Nat.min_le_right _ _)
    rw [List.getElem_zip] at hget
    refine ⟨i, h1, h2, ?_, ?_⟩
    · simpa using congrArg Prod.fst hget
    · have := congrArg Prod.snd hget
      simp only at this
      simp only [List.get_eq_getElem]
      rw [this]
      simpa using hns
  · rintro ⟨i, h1, h2, hx, hs⟩
    refine ⟨(cands.get ⟨i, h1⟩, states.get ⟨i, h2⟩), ?_, hx⟩
    rw [List.mem_filter]
    constructor
    · rw [List.mem_iff_getElem]
      exact ⟨i, by rw [List.length_zip]; omega, by rw [List.getElem_zip]; simp⟩
    · simpa using hs

/-- C6 witness: the amended characterization applied to a concrete batch
with one proof of each state. -/
theorem restore_retain_spec_witness :
    (7 : Nat) ∈ restore_retain [7, 8, 9]
      [PState.unspent, PState.pending, PState.spent] ∧
      ¬ (9 : Nat) ∈ restore_retain [7, 8, 9]
        [PState.unspent, PState.pending, PState.spent] := by
  constructor
  · exact (restore_retain_spec [7, 8, 9]
      [PState.unspent, PState.pending, PState.spent] 7).mpr
      ⟨0, by decide, by decide, rfl, by decide⟩
  · intro h
    obtain ⟨i, h1, h2, hx, hs⟩ := (restore_retain_spec [7, 8, 9]
      [PState.unspent, PState.pending, PState.spent] 9).mp h
    have h3 : i < 3 := by simpa using h1
    interval_cases i
    · simp at hx
    · simp at hx
    · simp at hs

/-! ## Theorems: C7 (`receive_token` entry checks) -/

/-- C7 counterexample.  A token piece with an empty proof list and a
mint URL different from the wallet's returns the empty list instead of
being rejected with `MintUrlUnmatched`: the empty-list early return
precedes the URL check. -/
theorem receive_token_guard_empty_beats_unmatched :
    receive_token_guard "https://a.example/" "https://b.example/" [] =
      ReceiveOutcome.emptyReturn ∧
      "https://a.example/" ≠ "https://b.example/" := by
  constructor
  · rfl
  · decide

/-- C7 as amended.  `receive_token` checks in order: an empty proof
list returns the empty proof list; then a mint-URL mismatch is rejected
with `MintUrlUnmatched`; then a zero proof-amount sum returns the empty
proof list without a swap; otherwise the swap runs on the summed
amount. -/
theorem receive_token_guard_spec (pieceMint walletUrl : String)
    (amounts : List Nat) :
    (amounts = [] →
      receive_token_guard pieceMint walletUrl amounts = .emptyReturn)
    ∧ (amounts ≠ [] → pieceMint ≠ walletUrl →
      receive_token_guard pieceMint walletUrl amounts = .mintUrlUnmatched)
    ∧ (amounts ≠ [] → pieceMint = walletUrl → amounts.sum = 0 →
      receive_token_guard pieceMint walletUrl amounts = .emptyReturn)
    ∧ (amounts ≠ [] → pieceMint = walletUrl → 0 < amounts.sum →
      receive_token_guard pieceMint walletUrl amounts = .swap amounts.sum) := by
  refine ⟨fun h => ?_, fun h1 h2 => ?_, fun h1 h2 h3 => ?_, fun h1 h2 h3 => ?_⟩
  · simp [receive_token_guard, h]
  · simp [receive_token_guard, h1, h2]
  · simp [receive_token_guard, h1, h2, h3]
  · have : ¬ amounts.sum ≤ 0 := by omega
    simp [receive_token_guard, h1, h2, this]

/-- C7 witness: each guard branch exercised at a concrete input. -/
theorem receive_token_guard_spec_witness :
    (receive_token_guard "https://m.example/" "https://m.example/" [] =
      .emptyReturn)
    ∧ (receive_token_guard "https://m.example/" "https://w.example/" [2] =
      .mintUrlUnmatched)
    ∧ (receive_token_guard "https://m.example/" "https://m.example/" [0] =
      .emptyReturn)
    ∧ (receive_token_guard "https://m.example/" "https://m.example/" [2, 1] =
      .swap 3) := by
  refine ⟨?_, ?_, ?_, ?_⟩
  · exact (receive_token_guard_spec "https://m.example/" "https://m.example/"
      []).1 rfl
  · exact (receive_token_guard_spec "https://m.example/" "https://w.example/"
      [2]).2.1 (by decide) (by decide)
  · exact (receive_token_guard_spec "https://m.example/" "https://m.example/"
      [0]).2.2.1 (by decide) rfl rfl
  · exact (receive_token_guard_spec "https://m.example/" "https://m.example/"
      [2, 1]).2.2.2 (by decide) rfl (by decide)

/-! ## Theorems: C4 (counter index-space bound) -/

theorem mem_insertTs {c a : MCounter} {l : List MCounter} :
    a ∈ insertTs c l ↔ a = c ∨ a ∈ l := by
  induction l with
  | nil => simp [insertTs]
  | cons x xs ih =>
    simp only [insertTs]
    by_cases h : x.record.ts < c.record.ts
    · simp only [if_pos h, List.mem_cons, ih]
      tauto
    · simp only [if_neg h, List.mem_cons]

theorem mem_sortByTs {a : MCounter} {l : List MCounter} :
    a ∈ sortByTs l ↔ a ∈ l := by
  induction l with
  | nil => simp [sortByTs]
  | cons x xs ih => simp [sortByTs, mem_insertTs, ih]

/-- C4 counterexample.  A counter persisted one step below the bound
`2^31 − 51` is retained by `Manager::records`, and a two-output batch
from its session derives an index at the bound: indices at or above
`2^31 − 51` can be used to generate, and no keyset is removed when
counter plus batch would pass the bound. -/
theorem counter_bound_not_enforced_in_session :
    (manager_records "m" [⟨"m", "k1", 2 ^ 31 - 1 - 50 - 1, 0, "p"⟩]
        [⟨"k1", "sat"⟩] 5 =
      [⟨⟨"m", "k1", 2 ^ 31 - 1 - 50 - 1, 0, "p"⟩, 2 ^ 31 - 1 - 50 - 1, 0⟩])
    ∧ (∃ p ∈ (genOutputs [1, 1]
        ⟨2 ^ 31 - 1 - 50 - 1, 2 ^ 31 - 1 - 50 - 1⟩).1,
        2 ^ 31 - 1 - 50 ≤ p.index) := by
  constructor
  · decide
  · refine ⟨⟨2 ^ 31 - 1 - 50 - 1 + 1, 1⟩, by simp [genOutputs], by norm_num⟩

/-- C4 as amended.  `Manager::records` retires exactly the persisted
counters at or above `(2^31 − 1) − 50`: every counter it returns is
below the bound, and every persisted record with a known keyset and a
counter below the bound is kept.  This build-time filter is the only
bound enforcement; within a session `Counter::next` is unbounded. -/
theorem manager_records_bound (mint : String) (records : List CRecord)
    (keysets : List KeySetM) (now : Nat) :
    (∀ c ∈ manager_records mint records keysets now,
      c.record.counter < 2 ^ 31 - 1 - 50)
    ∧ (∀ r ∈ records, ∀ i,
        keysets.findIdx? (fun k => k.id == r.keysetid) = some i →
        r.counter < 2 ^ 31 - 1 - 50 →
        (⟨r, r.counter, i⟩ : MCounter) ∈
          manager_records mint records keysets now) := by
  constructor
  · intro c hc
    simp only [manager_records] at hc
    rw [mem_sortByTs] at hc
    exact of_decide_eq_true (List.mem_filter.mp hc).2
  · intro r hr i hidx hbound
    simp only [manager_records]
    rw [mem_sortByTs]
    refine List.mem_filter.mpr ⟨List.mem_append_left _ ?_, decide_eq_true hbound⟩
    exact List.mem_filterMap.mpr ⟨r, hr, by simp [record_to_counter, hidx]⟩

/-- C4 witness: the amended bound applied to a concrete manager. -/
theorem manager_records_bound_witness :
    ((⟨⟨"m", "k1", 7, 0, "p"⟩, 7, 0⟩ : MCounter) ∈
      manager_records "m" [⟨"m", "k1", 7, 0, "p"⟩] [⟨"k1", "sat"⟩] 5)
    ∧ (⟨⟨"m", "k1", 7, 0, "p"⟩, 7, 0⟩ : MCounter).record.counter <
        2 ^ 31 - 1 - 50 := by
  have h := manager_records_bound "m" [⟨"m", "k1", 7, 0, "p"⟩]
    [⟨"k1", "sat"⟩] 5
  have hmem := h.2 ⟨"m", "k1", 7, 0, "p"⟩ (by simp) 0 (by decide) (by norm_num)
  exact ⟨hmem, h.1 _ hmem⟩

/-! ## Theorems: C1 (`try_to_call_swap` retry and commit policy) -/

theorem genOutputs_snd (plan : List Nat) (c : CounterSt) :
    (genOutputs plan c).2 = ⟨c.recordCounter, c.state + plan.length⟩ := by
  induction plan generalizing c with
  | nil => simp [genOutputs]
  | cons a rest ih =>
    simp only [genOutputs, List.length_cons]
    rw [ih]
    simp only [CounterSt.mk.injEq, true_and]
    omega

theorem genOutputs_index_bounds (plan : List Nat) (c : CounterSt) :
    ∀ p ∈ (genOutputs plan c).1,
      c.state ≤ p.index ∧ p.index < c.state + plan.length := by
  induction plan generalizing c with
  | nil => simp [genOutputs]
  | cons a rest ih =>
    intro p hp
    simp only [genOutputs, List.mem_cons] at hp
    rcases hp with rfl | hp
    · simp only [List.length_cons]
      omega
    · have := ih ⟨c.recordCounter, c.state + 1⟩ p hp
      simp only [List.length_cons] at this ⊢
      omega

theorem tts_run_ok (r1 r2 : SwapReply) (plan : List Nat) (c : CounterSt)
    (store : Nat) :
    try_to_call_swap .ok r1 r2 true plan c store =
      some ⟨.ok, ⟨c.state + plan.length, c.state + plan.length⟩,
        c.state + plan.length, 1, [(genOutputs plan c).1]⟩ := by
  simp [try_to_call_swap, trySwapGo, commitCounter, genOutputs_snd]

theorem tts_run_other (r1 r2 : SwapReply) (plan : List Nat) (c : CounterSt)
    (store : Nat) :
    try_to_call_swap .otherError r1 r2 true plan c store =
      some ⟨.otherError, ⟨c.recordCounter, c.state + plan.length⟩, store, 1,
        [(genOutputs plan c).1]⟩ := by
  simp [try_to_call_swap, trySwapGo, genOutputs_snd]

theorem tts_run_as_ok (r2 : SwapReply) (plan : List Nat) (c : CounterSt)
    (store : Nat) :
    try_to_call_swap .alreadySigned .ok r2 true plan c store =
      some ⟨.ok,
        ⟨c.state + plan.length + plan.length, c.state + plan.length + plan.length⟩,
        c.state + plan.length + plan.length, 2,
        [(genOutputs plan c).1,
          (genOutputs plan ⟨c.recordCounter, c.state + plan.length⟩).1]⟩ := by
  simp [try_to_call_swap, trySwapGo, commitCounter, genOutputs_snd]

theorem tts_run_as_other (r2 : SwapReply) (plan : List Nat) (c : CounterSt)
    (store : Nat) :
    try_to_call_swap .alreadySigned .otherError r2 true plan c store =
      some ⟨.otherError,
        ⟨c.recordCounter, c.state + plan.length + plan.length⟩, store, 2,
        [(genOutputs plan c).1,
          (genOutputs plan ⟨c.recordCounter, c.state + plan.length⟩).1]⟩ := by
  simp [try_to_call_swap, trySwapGo, genOutputs_snd]

theorem tts_run_as_as_ok (plan : List Nat) (c : CounterSt) (store : Nat) :
    try_to_call_swap .alreadySigned .alreadySigned .ok true plan c store =
      some ⟨.ok,
        ⟨c.state + plan.length + plan.length + plan.length,
          c.state + plan.length + plan.length + plan.length⟩,
        c.state + plan.length + plan.length + plan.length, 3,
        [(genOutputs plan c).1,
          (genOutputs plan ⟨c.recordCounter, c.state + plan.length⟩).1,
          (genOutputs plan
            ⟨c.recordCounter, c.state + plan.length + plan.length⟩).1]⟩ := by
  simp [try_to_call_swap, trySwapGo, commitCounter, genOutputs_snd]

theorem tts_run_as_as_as (plan : List Nat) (c : CounterSt) (store : Nat) :
    try_to_call_swap .alreadySigned .alreadySigned .alreadySigned true plan
        c store =
      some ⟨.alreadySigned,
        ⟨c.state + plan.length + plan.length + plan.length,
          c.state + plan.length + plan.length + plan.length⟩,
        c.state + plan.length + plan.length + plan.length, 3,
        [(genOutputs plan c).1,
          (genOutputs plan ⟨c.recordCounter, c.state + plan.length⟩).1,
          (genOutputs plan
            ⟨c.recordCounter, c.state + plan.length + plan.length⟩).1]⟩ := by
  simp [try_to_call_swap, trySwapGo, commitCounter, genOutputs_snd]

theorem tts_run_as_as_other (plan : List Nat) (c : CounterSt) (store : Nat) :
    try_to_call_swap .alreadySigned .alreadySigned .otherError true plan
        c store =
      some ⟨.otherError,
        ⟨c.recordCounter, c.state + plan.length + plan.length + plan.length⟩,
        store, 3,
        [(genOutputs plan c).1,
          (genOutputs plan ⟨c.recordCounter, c.state + plan.length⟩).1,
          (genOutputs plan
            ⟨c.recordCounter, c.state + plan.length + plan.length⟩).1]⟩ := by
  simp [try_to_call_swap, trySwapGo, genOutputs_snd]

/-- C1.  With a mnemonic present, `try_to_call_swap` makes at most
three swap calls; a further call happens only after an
"outputs already signed before" reply, and such a reply always triggers
one; every retry posts outputs at strictly higher indices; when the
surfaced result is the already-signed error, the advanced counter —
past every index generated during the run — is committed to the store;
when it is any other error the store is untouched and the cursor is
rolled back (by the session drop); and a store change on a failing
result happens only for the already-signed error. -/
theorem try_to_call_swap_spec (r0 r1 r2 : SwapReply) (plan : List Nat)
    (c : CounterSt) (store : Nat) :
    ∃ run, try_to_call_swap r0 r1 r2 true plan c store = some run ∧
      run.calls ≤ 3
      ∧ (2 ≤ run.calls → r0 = .alreadySigned)
      ∧ (3 ≤ run.calls → r1 = .alreadySigned)
      ∧ (r0 = .alreadySigned → 2 ≤ run.calls)
      ∧ (r0 = .alreadySigned → r1 = .alreadySigned → run.calls = 3)
      ∧ run.batches.length = run.calls
      ∧ (∀ j, ∀ (h1 : j < run.batches.length) (h2 : j + 1 < run.batches.length),
          ∀ x ∈ run.batches.get ⟨j, h1⟩, ∀ y ∈ run.batches.get ⟨j + 1, h2⟩,
            x.index < y.index)
      ∧ (run.reply = .alreadySigned →
          run.store = c.state + run.calls * plan.length ∧
          run.counter.recordCounter = run.store ∧
          ∀ b ∈ run.batches, ∀ x ∈ b, x.index < run.store)
      ∧ (run.reply = .otherError →
          run.store = store ∧ run.counter.recordCounter = c.recordCounter ∧
          cancelCounter run.counter = ⟨c.recordCounter, c.recordCounter⟩)
      ∧ (run.reply ≠ .ok → run.store ≠ store → run.reply = .alreadySigned) := by
  have hb0 := genOutputs_index_bounds plan c
  have hb1 := genOutputs_index_bounds plan ⟨c.recordCounter, c.state + plan.length⟩
  have hb2 := genOutputs_index_bounds plan
    ⟨c.recordCounter, c.state + plan.length + plan.length⟩
  have hone : ∀ j, ¬ (j + 1 < 1) := by omega
  have h13 : (1 : Nat) ≤ 3 := by decide
  have h23 : (2 : Nat) ≤ 3 := by decide
  have h33 : (3 : Nat) ≤ 3 := by decide
  have h22 : (2 : Nat) ≤ 2 := by decide
  have hn21 : ¬ (2 : Nat) ≤ 1 := by decide
  have hn31 : ¬ (3 : Nat) ≤ 1 := by decide
  have hn32 : ¬ (3 : Nat) ≤ 2 := by decide
  have hOkAs : ¬ SwapReply.ok = SwapReply.alreadySigned := by decide
  have hOkOther : ¬ SwapReply.ok = SwapReply.otherError := by decide
  have hOtherAs : ¬ SwapReply.otherError = SwapReply.alreadySigned := by decide
  have hAsOther : ¬ SwapReply.alreadySigned = SwapReply.otherError := by decide
  have hpair : ∀ (b0 b1 : List PreMintI) (bound : Nat),
      (∀ x ∈ b0, x.index < bound) → (∀ y ∈ b1, bound ≤ y.index) →
      ∀ j, ∀ (h1 : j < ([b0, b1] : List (List PreMintI)).length)
        (h2 : j + 1 < ([b0, b1] : List (List PreMintI)).length),
        ∀ x ∈ ([b0, b1] : List (List PreMintI)).get ⟨j, h1⟩,
          ∀ y ∈ ([b0, b1] : List (List PreMintI)).get ⟨j + 1, h2⟩,
            x.index < y.index := by
    intro b0 b1 bound hx0 hy1 j h1 h2 x hx y hy
    have hj : j = 0 := by
      have : j + 1 < 2 := h2
      omega
    subst hj
    exact lt_of_lt_of_le (hx0 x hx) (hy1 y hy)
  have htriple : ∀ (b0 b1 b2 : List PreMintI) (m1 m2 : Nat),
      (∀ x ∈ b0, x.index < m1) → (∀ y ∈ b1, m1 ≤ y.index) →
      (∀ y ∈ b1, y.index < m2) → (∀ z ∈ b2, m2 ≤ z.index) →
      ∀ j, ∀ (h1 : j < ([b0, b1, b2] : List (List PreMintI)).length)
        (h2 : j + 1 < ([b0, b1, b2] : List (List PreMintI)).length),
        ∀ x ∈ ([b0, b1, b2] : List (List PreMintI)).get ⟨j, h1⟩,
          ∀ y ∈ ([b0, b1, b2] : List (List PreMintI)).get ⟨j + 1, h2⟩,
            x.index < y.index := by
    intro b0 b1 b2 m1 m2 h01 h10 h12 h21 j h1 h2 x hx y hy
    have hj : j + 1 < 3 := h2
    match j, hj with
    | 0, _ => exact lt_of_lt_of_le (h01 x hx) (h10 y hy)
    | 1, _ => exact lt_of_lt_of_le (h12 x hx) (h21 y hy)
  have hup0 : ∀ x ∈ (genOutputs plan c).1,
      x.index < c.state + plan.length := fun x hx => (hb0 x hx).2
  have hlo1 : ∀ y ∈ (genOutputs plan
      ⟨c.recordCounter, c.state + plan.length⟩).1,
      c.state + plan.length ≤ y.index := fun y hy => (hb1 y hy).1
  have hup1 : ∀ y ∈ (genOutputs plan
      ⟨c.recordCounter, c.state + plan.length⟩).1,
      y.index < c.state + plan.length + plan.length :=
    fun y hy => (hb1 y hy).2
  have hlo2 : ∀ z ∈ (genOutputs plan
      ⟨c.recordCounter, c.state + plan.length + plan.length⟩).1,
      c.state + plan.length + plan.length ≤ z.index :=
    fun z hz => (hb2 z hz).1
  have hup2 : ∀ z ∈ (genOutputs plan
      ⟨c.recordCounter, c.state + plan.length + plan.length⟩).1,
      z.index < c.state + plan.length + plan.length + plan.length :=
    fun z hz => (hb2 z hz).2
  cases r0 with
  | ok =>
    refine ⟨_, tts_run_ok r1 r2 plan c store, h13,
      fun h => absurd h hn21, fun h => absurd h hn31,
      fun h => absurd h hOkAs, fun h _ => absurd h hOkAs, rfl,
      fun j h1 h2 => absurd h2 (hone j),
      fun h => absurd h hOkAs, fun h => absurd h hOkOther,
      fun h => absurd rfl h⟩
  | otherError =>
    refine ⟨_, tts_run_other r1 r2 plan c store, h13,
      fun h => absurd h hn21, fun h => absurd h hn31,
      fun h => absurd h hOtherAs, fun h _ => absurd h hOtherAs, rfl,
      fun j h1 h2 => absurd h2 (hone j),
      fun h => absurd h hOtherAs, fun _ => ⟨rfl, rfl, rfl⟩,
      fun _ h => absurd rfl h⟩
  | alreadySigned =>
    cases r1 with
    | ok =>
      refine ⟨_, tts_run_as_ok r2 plan c store, h23,
        fun _ => rfl, fun h => absurd h hn32, fun _ => h22,
        fun _ h => absurd h hOkAs, rfl,
        hpair _ _ (c.state + plan.length) hup0 hlo1,
        fun h => absurd h hOkAs, fun h => absurd h hOkOther,
        fun h => absurd rfl h⟩
    | otherError =>
      refine ⟨_, tts_run_as_other r2 plan c store, h23,
        fun _ => rfl, fun h => absurd h hn32, fun _ => h22,
        fun _ h => absurd h hOtherAs, rfl,
        hpair _ _ (c.state + plan.length) hup0 hlo1,
        fun h => absurd h hOtherAs, fun _ => ⟨rfl, rfl, rfl⟩,
        fun _ h => absurd rfl h⟩
    | alreadySigned =>
      have hcons := htriple _ _ _ (c.state + plan.length)
        (c.state + plan.length + plan.length) hup0 hlo1 hup1 hlo2
      cases r2 with
      | ok =>
        refine ⟨_, tts_run_as_as_ok plan c store, h33,
          fun _ => rfl, fun _ => rfl, fun _ => h23, fun _ _ => rfl, rfl,
          hcons, fun h => absurd h hOkAs, fun h => absurd h hOkOther,
          fun h => absurd rfl h⟩
      | alreadySigned =>
        refine ⟨_, tts_run_as_as_as plan c store, h33,
          fun _ => rfl, fun _ => rfl, fun _ => h23, fun _ _ => rfl, rfl,
          hcons, ?_, fun h => absurd h hAsOther, fun _ _ => rfl⟩
        intro _
        refine ⟨?_, rfl, ?_⟩
        · show c.state + plan.length + plan.length + plan.length =
            c.state + 3 * plan.length
          omega
        · intro b hb x hx
          have hb' : b = (genOutputs plan c).1 ∨
              b = (genOutputs plan
                ⟨c.recordCounter, c.state + plan.length⟩).1 ∨
              b = (genOutputs plan
                ⟨c.recordCounter, c.state + plan.length + plan.length⟩).1 := by
            simpa using hb
          show x.index < c.state + plan.length + plan.length + plan.length
          rcases hb' with rfl | rfl | rfl
          · have := hup0 x hx; omega
          · have := hup1 x hx; omega
          · exact hup2 x hx
      | otherError =>
        refine ⟨_, tts_run_as_as_other plan c store, h33,
          fun _ => rfl, fun _ => rfl, fun _ => h23, fun _ _ => rfl, rfl,
          hcons, fun h => absurd h hOtherAs, fun _ => ⟨rfl, rfl, rfl⟩,
          fun _ h => absurd rfl h⟩

/-- C1 witness: the spec applied to a run in which every attempt hits
the already-signed error, with a two-output plan. -/
theorem try_to_call_swap_spec_witness :
    ∃ run, try_to_call_swap .alreadySigned .alreadySigned .alreadySigned true
        [2, 1] ⟨0, 0⟩ 0 = some run ∧
      run.calls = 3 ∧ run.store = 0 + 3 * 2 ∧
      run.counter.recordCounter = run.store := by
  obtain ⟨run, heq, _h1, _h2, _h3, _h4, h5, _h6, _h7, h8, _h9, _h10⟩ :=
    try_to_call_swap_spec .alreadySigned .alreadySigned .alreadySigned
      [2, 1] ⟨0, 0⟩ 0
  have hrun := tts_run_as_as_as [2, 1] ⟨0, 0⟩ 0
  have hid := Option.some.inj (hrun.symm.trans heq)
  have hreply : run.reply = SwapReply.alreadySigned := by rw [← hid]
  have hcalls := h5 rfl rfl
  obtain ⟨hs, hrc, _⟩ := h8 hreply
  refine ⟨run, heq, hcalls, ?_, hrc⟩
  rw [hs, hcalls]
  decide

/-! ## Theorems: C9 (token round-trip) -/

theorem decode_encodeProof (p : ProofW) :
    decodeProof (encodeProof p) = some p := by
  obtain ⟨i, a, s, c, w, d⟩ := p
  cases w <;> cases d <;>
    simp [encodeProof, decodeProof, jlookup, decodeOptField]

theorem decode_encodeProofV4 (p : ProofV4W) :
    decodeProofV4 (encodeProofV4 p) = some p := by
  obtain ⟨a, s, c, w, d⟩ := p
  cases w <;> cases d <;>
    simp [encodeProofV4, decodeProofV4, jlookup, decodeOptField]

theorem decodeList_map {α : Type} (f : Json → Option α) (g : α → Json)
    (h : ∀ x, f (g x) = some x) (l : List α) :
    decodeList f (l.map g) = some l := by
  induction l with
  | nil => rfl
  | cons x xs ih => simp [decodeList, h x, ih]

theorem decode_encodeMintProofs (mp : MintProofsW)
    (h : urlRoundTrips mp.mint) :
    decodeMintProofs (encodeMintProofs mp) = some mp := by
  obtain ⟨u, ps⟩ := mp
  unfold urlRoundTrips at h
  simp [encodeMintProofs, decodeMintProofs, jlookup, h,
    decodeList_map decodeProof encodeProof decode_encodeProof ps]

theorem decodeList_mintProofs (l : List MintProofsW)
    (h : ∀ mp ∈ l, urlRoundTrips mp.mint) :
    decodeList decodeMintProofs (l.map encodeMintProofs) = some l := by
  induction l with
  | nil => rfl
  | cons mp rest ih =>
    simp only [List.map_cons, decodeList]
    rw [decode_encodeMintProofs mp (h mp (List.mem_cons_self _ _)),
      ih (fun x hx => h x (List.mem_cons_of_mem _ hx))]

theorem decode_encodeTokenV4Token (tt : TokenV4TokenW) :
    decodeTokenV4Token (encodeTokenV4Token tt) = some tt := by
  obtain ⟨i, ps⟩ := tt
  simp [encodeTokenV4Token, decodeTokenV4Token, jlookup,
    decodeList_map decodeProofV4 encodeProofV4 decode_encodeProofV4 ps]

/-- C9 counterexample.  The mint URL "https://8333.space:3338//" is a
legitimate `MintUrl` value (its own parser produces it), but the
trailing-slash-trimming serializer erases one slash, so
`parse(format(t))` returns the normalised URL, not `t`: the round-trip
claim fails for this well-formed token. -/
theorem token_v3_roundtrip_fails :
    (mint_url_from_str "https://8333.space:3338//" =
      some ⟨"https://8333.space:3338", "//"⟩)
    ∧ decodeTokenV3 (encodeTokenV3
        ⟨[⟨⟨"https://8333.space:3338", "//"⟩,
          [⟨"k", 1, "s", "c", none, none⟩]⟩], none, none⟩) ≠
      some ⟨[⟨⟨"https://8333.space:3338", "//"⟩,
          [⟨"k", 1, "s", "c", none, none⟩]⟩], none, none⟩ := by
  constructor
  · decide
  · decide

/-- C9 as amended.  `parse(format(t)) = t` for v3 and v4 alike whenever
every mint URL in `t` is fixed by the serialize-then-parse
normalisation (no redundant trailing slash), the v4 token additionally
carrying at least one proof; a URL with a repeated trailing slash comes
back normalised instead. -/
theorem token_roundtrip_spec (t3 : TokenV3W) (t4 : TokenV4W)
    (h3 : ∀ mp ∈ t3.token, urlRoundTrips mp.mint)
    (h4 : urlRoundTrips t4.mintUrl)
    (hne : (t4.token.map (fun tt => tt.proofs.length)).sum ≠ 0) :
    decodeTokenV3 (encodeTokenV3 t3) = some t3 ∧
      decodeTokenV4 (encodeTokenV4 t4) = some t4 := by
  constructor
  · obtain ⟨token, memo, unit⟩ := t3
    have hlist := decodeList_mintProofs token h3
    cases memo <;> cases unit <;>
      simp [encodeTokenV3, decodeTokenV3, jlookup, decodeOptField, hlist]
  · obtain ⟨u, unit, memo, token⟩ := t4
    unfold urlRoundTrips at h4
    have hlist := decodeList_map decodeTokenV4Token encodeTokenV4Token
      decode_encodeTokenV4Token token
    simp only at h4 hne
    cases unit <;> cases memo <;>
      simp [encodeTokenV4, decodeTokenV4, jlookup, decodeOptField, hlist,
        h4, hne]

/-- C9 witness: a concrete v3 token and v4 token round-trip exactly. -/
theorem token_roundtrip_spec_witness :
    decodeTokenV3 (encodeTokenV3
        ⟨[⟨⟨"https://8333.space:3338", "/"⟩,
          [⟨"k", 2, "sec", "c0", none, none⟩]⟩], some "memo", some "sat"⟩) =
      some ⟨[⟨⟨"https://8333.space:3338", "/"⟩,
          [⟨"k", 2, "sec", "c0", none, none⟩]⟩], some "memo", some "sat"⟩
    ∧ decodeTokenV4 (encodeTokenV4
        ⟨⟨"https://8333.space:3338", "/"⟩, some "sat", none,
          [⟨"k", [⟨2, "sec", "c0", none, none⟩]⟩]⟩) =
      some ⟨⟨"https://8333.space:3338", "/"⟩, some "sat", none,
          [⟨"k", [⟨2, "sec", "c0", none, none⟩]⟩]⟩ :=
  token_roundtrip_spec
    ⟨[⟨⟨"https://8333.space:3338", "/"⟩,
      [⟨"k", 2, "sec", "c0", none, none⟩]⟩], some "memo", some "sat"⟩
    ⟨⟨"https://8333.space:3338", "/"⟩, some "sat", none,
      [⟨"k", [⟨2, "sec", "c0", none, none⟩]⟩]⟩
    (by
      intro mp hmp
      rw [List.mem_singleton] at hmp
      subst hmp
      decide)
    (by decide)
    (by decide)

/-! ## Theorems: C10 (`check_pendings`, Cashu kind) -/

theorem flushStates_group (stateOf : Nat → PState) (group : List PendTx) :
    flushStates (((group.map PendTx.proofs).join).map stateOf)
        (group.map (fun t => t.proofs.length)) =
      (group.map (fun tx =>
          if tx.proofs.any (fun p => stateOf p == PState.spent)
          then TStatus.success else TStatus.pending),
        (group.filter (fun tx =>
          tx.proofs.any (fun p => stateOf p == PState.spent))).length) := by
  induction group with
  | nil => rfl
  | cons tx rest ih =>
    simp only [List.map_cons, List.join_cons, List.map_append, flushStates]
    have htake : ((tx.proofs.map stateOf) ++
        ((rest.map PendTx.proofs).join).map stateOf).take tx.proofs.length =
        tx.proofs.map stateOf := by
      rw [← List.length_map tx.proofs stateOf, List.take_left]
    have hdrop : ((tx.proofs.map stateOf) ++
        ((rest.map PendTx.proofs).join).map stateOf).drop tx.proofs.length =
        ((rest.map PendTx.proofs).join).map stateOf := by
      rw [← List.length_map tx.proofs stateOf, List.drop_left]
    rw [htake, hdrop, ih]
    have hany : ∀ l : List Nat,
        (l.map stateOf).any (fun s => s == PState.spent) =
          l.any (fun p => stateOf p == PState.spent) := by
      intro l
      induction l with
      | nil => rfl
      | cons a t iht => simp [List.any_cons, iht]
    rw [hany]
    by_cases hs : tx.proofs.any (fun p => stateOf p == PState.spent) = true
    · simp [hs, List.filter_cons, Nat.add_comm]
    · simp [hs, List.filter_cons, Bool.eq_false_iff.mpr hs]

theorem check_pendings_formula_append (stateOf : Nat → PState)
    (l1 l2 : List PendTx) :
    check_pendings_formula stateOf (l1 ++ l2) =
      ((check_pendings_formula stateOf l1).1 ++
          (check_pendings_formula stateOf l2).1,
        (check_pendings_formula stateOf l1).2 +
          (check_pendings_formula stateOf l2).2) := by
  simp [check_pendings_formula, List.filter_append]

theorem check_pendings_go_spec (stateOf : Nat → PState) (batchSize : Nat)
    (txs : List PendTx) : ∀ acc : List PendTx,
    check_pendings_go stateOf batchSize txs ((acc.map PendTx.proofs).join)
        (acc.map (fun t => t.proofs.length)) =
      if txs.isEmpty then ([], 0)
      else check_pendings_formula stateOf (acc ++ txs) := by
  induction txs with
  | nil => intro acc; rfl
  | cons tx rest ih =>
    intro acc
    simp only [check_pendings_go, List.isEmpty_cons, if_neg Bool.false_ne_true]
    have hps : ((acc.map PendTx.proofs).join) ++ tx.proofs =
        (((acc ++ [tx]).map PendTx.proofs).join) := by
      simp
    have htok : (acc.map (fun t => t.proofs.length)) ++ [tx.proofs.length] =
        ((acc ++ [tx]).map (fun t => t.proofs.length)) := by
      simp
    rw [hps, htok]
    have hgroup := flushStates_group stateOf (acc ++ [tx])
    by_cases hrest : rest = []
    · subst hrest
      rw [if_pos (by simp)]
      rw [hgroup]
      have h0 : check_pendings_go stateOf batchSize [] [] [] = ([], 0) := rfl
      rw [h0]
      simp [check_pendings_formula]
    · have hrne : rest.isEmpty = false := by
        simpa using hrest
      by_cases hb : batchSize ≤ (((acc ++ [tx]).map PendTx.proofs).join).length
      · have hcond : (rest.isEmpty || decide (batchSize ≤
            (((acc ++ [tx]).map PendTx.proofs).join).length)) = true := by
          rw [decide_eq_true hb, Bool.or_true]
        rw [if_pos hcond]
        rw [hgroup]
        have hrec : check_pendings_go stateOf batchSize rest [] [] =
            check_pendings_formula stateOf rest := by
          have := ih []
          simpa [hrne] using this
        rw [hrec]
        rw [show acc ++ tx :: rest = (acc ++ [tx]) ++ rest by simp]
        rw [check_pendings_formula_append stateOf (acc ++ [tx]) rest]
        simp [check_pendings_formula]
      · have hcond : (rest.isEmpty || decide (batchSize ≤
            (((acc ++ [tx]).map PendTx.proofs).join).length)) = false := by
          rw [hrne, decide_eq_false hb, Bool.or_false]
        rw [if_neg (by rw [hcond]; exact Bool.false_ne_true)]
        have := ih (acc ++ [tx])
        rw [this, if_neg (by simpa using hrest)]
        rw [show acc ++ tx :: rest = (acc ++ [tx]) ++ rest by simp]

/-- C10.  The Cashu-kind pending check returns, for every pending
out-direction transaction, status `Success` exactly when at least one
of its decoded proofs is reported `Spent` by the mint (`Pending`
otherwise), and its update count counts each updated transaction once:
the batched loop equals the one-transaction-at-a-time formula. -/
theorem check_pendings_cashu_spec (stateOf : Nat → PState)
    (txs : List PendTx) :
    check_pendings_cashu stateOf txs = check_pendings_formula stateOf txs := by
  cases htx : txs with
  | nil => rfl
  | cons tx rest =>
    have := check_pendings_go_spec stateOf 64 (tx :: rest) []
    simpa [check_pendings_cashu] using this

/-! ## Theorems: C5 (melt blank outputs) -/

/-- C5 evaluation at the failing input fee_reserve = 4: the wallet
generates `max(1, ceil(log2 4)) = 2` blank outputs, sets the `PreMint`
bookkeeping amounts to 1, but the posted blinded messages keep wire
amount 0 — the mutation `p.amount = 1` never reaches the serialized
`blinded_message`. -/
theorem melt_blank_wire_amount_zero :
    (melt_posted_outputs 4 0).map BlindedMsgM.amount = [0, 0] ∧
      (melt_blank_outputs 4 0).map PreMintM.amount = [1, 1] ∧
      max (Nat.clog 2 4) 1 = 2 := by
  have h4 : Nat.clog 2 4 = 2 := by
    have := Nat.clog_pow 2 2 (by norm_num)
    simpa using this
  refine ⟨?_, ?_, ?_⟩ <;>
    simp only [melt_posted_outputs, melt_blank_outputs, split_blank, h4] <;>
    decide

/-! ## Theorems: C8 (`Token::from_str` rejection) -/

/-! ## Theorems: C8 (`Token::from_str` rejection) -/

/-- C8 counterexample.  The input "cashu€xyz" (the euro sign encodes as
bytes `E2 82 AC` at offsets 5–7) is 11 bytes long and its prefix is
neither "cashuA" nor "cashuB", yet `Token::from_str` does not reject it
with `UnsupportedToken`: `&s[..6]` panics, byte offset 6 falling inside
the multi-byte character. -/
theorem token_from_str_panics_mid_codepoint :
    token_from_str (fun _ => Except.ok ()) (fun _ => Except.ok ())
        (asciiBytes "cashu" ++ [0xE2, 0x82, 0xAC] ++ asciiBytes "xyz") =
      FromStrOutcome.panicked
    ∧ (asciiBytes "cashu" ++ [0xE2, 0x82, 0xAC] ++ asciiBytes "xyz").take 6 ≠
        asciiBytes "cashuA"
    ∧ (asciiBytes "cashu" ++ [0xE2, 0x82, 0xAC] ++ asciiBytes "xyz").take 6 ≠
        asciiBytes "cashuB" := by
  refine ⟨?_, ?_, ?_⟩ <;> decide

/-- C8 as amended.  `Token::from_str` rejects every input shorter than
7 bytes with `UnsupportedToken`; an input of at least 7 bytes whose
byte offset 6 is a character boundary and whose first six bytes are
neither "cashuA" nor "cashuB" is rejected with `UnsupportedToken`; an
input whose byte offset 6 falls inside a multi-byte character panics on
the `&s[..6]` slice instead — whatever the two body parsers do. -/
theorem token_from_str_rejects {α : Type}
    (parseV3 parseV4 : List UInt8 → Except TokenParseErr α) (s : List UInt8) :
    (s.length < 7 →
      token_from_str parseV3 parseV4 s = .err .unsupportedToken)
    ∧ (7 ≤ s.length → isCharBoundary s 6 = true →
      s.take 6 ≠ asciiBytes "cashuA" → s.take 6 ≠ asciiBytes "cashuB" →
      token_from_str parseV3 parseV4 s = .err .unsupportedToken)
    ∧ (7 ≤ s.length → isCharBoundary s 6 = false →
      token_from_str parseV3 parseV4 s = .panicked) := by
  refine ⟨?_, ?_, ?_⟩
  · intro h
    simp [token_from_str, h]
  · intro hlen hcb hA hB
    have h : ¬ s.length < 7 := by omega
    simp [token_from_str, h, hcb, hA, hB]
  · intro hlen hcb
    have h : ¬ s.length < 7 := by omega
    simp [token_from_str, h, hcb]

/-- C8 witness: the short input "cashu", the seven-byte input
"cashuXY", and the eight-byte input "cashu€" (boundary violation at
offset 6), one per conjunct. -/
theorem token_from_str_rejects_witness :
    (token_from_str (fun _ => Except.ok ()) (fun _ => Except.ok ())
      (asciiBytes "cashu") = .err .unsupportedToken)
    ∧ (token_from_str (fun _ => Except.ok ()) (fun _ => Except.ok ())
      (asciiBytes "cashuXY") = .err .unsupportedToken)
    ∧ (token_from_str (fun _ => Except.ok ()) (fun _ => Except.ok ())
      (asciiBytes "cashu" ++ [0xE2, 0x82, 0xAC]) = .panicked) := by
  refine ⟨?_, ?_, ?_⟩
  · exact (token_from_str_rejects (fun _ => Except.ok ()) (fun _ => Except.ok ())
      (asciiBytes "cashu")).1 (by decide)
  · exact (token_from_str_rejects (fun _ => Except.ok ()) (fun _ => Except.ok ())
      (asciiBytes "cashuXY")).2.1 (by decide) (by decide) (by decide) (by decide)
  · exact (token_from_str_rejects (fun _ => Except.ok ()) (fun _ => Except.ok ())
      (asciiBytes "cashu" ++ [0xE2, 0x82, 0xAC])).2.2 (by decide) (by decide)

end CashuWallet
